import Mathlib

/-!
Verification of the rating computation engine of `sports_elo` (`src/elo.py`).

Shallow embedding conventions:
* Python floats are modelled as exact rationals (`ℚ`).
* The transcendental call `pow(10, x)` from `math` is not exactly computable
  on rationals, so it is abstracted as an explicit function parameter
  `pow10 : ℚ → ℚ`; every definition that transitively calls `expected_score`
  takes `pow10` as its first argument.  The true function satisfies
  `pow10 0 = 1` and `pow10 x * pow10 (-x) = 1`; theorems that need these
  facts take them as hypotheses.
* A Python dict is modelled as an insertion-ordered key list `keys` together
  with a total function carrying the stored values; the function returns the
  `defaultdict` default (1000 for ratings, `[(0, 1000)]` for histories) on
  keys that are absent, which is exactly the value any read of an absent key
  would produce in the source.
-/

namespace SportsElo

/-- `DEFAULT_RATING = 1000` (elo.py line 7). -/
def DEFAULT_RATING : ℚ := 1000

/-- `K = 32` (elo.py line 8). -/
def K : ℚ := 32

/-- `expected_score(ra, rb)` (elo.py lines 18-19); `pow10` stands for
`lambda x: pow(10, x)`. -/
def expected_score (pow10 : ℚ → ℚ) (ra rb : ℚ) : ℚ :=
  1 / (1 + pow10 ((rb - ra) / 400))

/-- `update_elo(ra, rb, result_a)` (elo.py lines 22-26). -/
def update_elo (pow10 : ℚ → ℚ) (ra rb result_a : ℚ) : ℚ × ℚ :=
  (ra + K * (result_a - expected_score pow10 ra rb),
   rb + K * ((1 - result_a) - (1 - expected_score pow10 ra rb)))

/-- Python's `round(x, 2)`: round to the nearest multiple of 1/100. -/
def round2 (x : ℚ) : ℚ := (round (x * 100) : ℤ) / 100

variable {α : Type} [DecidableEq α]

/-- The state threaded through one computer run: the `ratings` and `history`
dicts (shared insertion-ordered key list plus value functions) and the
running `match_number` counter. -/
structure EloState (α : Type) where
  keys : List α
  rating : α → ℚ
  history : α → List (ℕ × ℚ)
  matchNumber : ℕ

/-- The state before seeding: empty dicts, `match_number = 1`
(elo.py lines 141-144 / 189-196 / 249-256). -/
def emptyState : EloState α :=
  ⟨[], fun _ => DEFAULT_RATING, fun _ => [(0, DEFAULT_RATING)], 1⟩

/-- Insert player `p` with the default rating and baseline history if not yet
present (seeding, and the lazy registration of elo.py lines 150-153). -/
def register (st : EloState α) (p : α) : EloState α :=
  if p ∈ st.keys then st
  else
    ⟨st.keys ++ [p], Function.update st.rating p DEFAULT_RATING,
     Function.update st.history p [(0, DEFAULT_RATING)], st.matchNumber⟩

/-- Seeding from the optional `players` set (elo.py lines 141-142 / 192-194 /
252-254); the set is modelled as a list of identifiers. -/
def initState (seed : List α) : EloState α :=
  seed.foldl register emptyState

/-- One singles match record `{player1, player2, score1, score2}`
(the `date` field is never read by the computer and is omitted). -/
structure SinglesMatch (α : Type) where
  player1 : α
  player2 : α
  score1 : ℤ
  score2 : ℤ

/-- The accepted branch of the singles loop (elo.py lines 158-167):
update both ratings, round to 2 decimals, append history entries, bump
the counter.  Assignments are sequential, exactly as in the source. -/
def singlesBody (pow10 : ℚ → ℚ) (st : EloState α) (winner loser : α) : EloState α :=
  let u := update_elo pow10 (st.rating winner) (st.rating loser) 1
  let rat1 := Function.update st.rating winner (round2 u.1)
  let rat2 := Function.update rat1 loser (round2 u.2)
  let h1 := Function.update st.history winner
    (st.history winner ++ [(st.matchNumber, round2 u.1)])
  let h2 := Function.update h1 loser (h1 loser ++ [(st.matchNumber, round2 u.2)])
  ⟨st.keys, rat2, h2, st.matchNumber + 1⟩

/-- One iteration of the singles loop (elo.py lines 146-167): register both
players, skip on equal scores, otherwise update winner and loser. -/
def singlesStep (pow10 : ℚ → ℚ) (st : EloState α) (m : SinglesMatch α) : EloState α :=
  let st1 := register (register st m.player1) m.player2
  if m.score1 = m.score2 then st1
  else if m.score1 > m.score2 then singlesBody pow10 st1 m.player1 m.player2
  else singlesBody pow10 st1 m.player2 m.player1

/-- `compute_singles_ratings(matches, players)` (elo.py lines 125-169);
the returned triple's third component is the unchanged input list, so only
the state is returned here. -/
def compute_singles_ratings (pow10 : ℚ → ℚ) (ms : List (SinglesMatch α))
    (seed : List α) : EloState α :=
  ms.foldl (singlesStep pow10) (initState seed)

/-- One doubles/team match record `{team1, team2, score1, score2}`
(the `date` field is never read by the computer). -/
structure TeamMatch (α : Type) where
  team1 : List α
  team2 : List α
  score1 : ℤ
  score2 : ℤ

/-- A team's composite rating: the arithmetic mean of its members' current
ratings (elo.py lines 207-208). -/
def teamMean (st : EloState α) (team : List α) : ℚ :=
  (team.map st.rating).sum / (team.length : ℚ)

/-- Apply a per-player delta to each player of `ps` in order: assign the
rounded new rating, append the history entry carrying the current
`match_number` `n`, and record the key.  This is the loop of elo.py lines
213-221 (with a constant delta per team) and also the application loop of
lines 290-293 (with the accumulated FFA deltas). -/
def applyDelta (n : ℕ) (d : α → ℚ) (st : EloState α) (ps : List α) : EloState α :=
  ps.foldl (fun s p =>
    ⟨if p ∈ s.keys then s.keys else s.keys ++ [p],
     Function.update s.rating p (round2 (s.rating p + d p)),
     Function.update s.history p (s.history p ++ [(n, round2 (s.rating p + d p))]),
     s.matchNumber⟩) st

/-- The accepted branch of the doubles loop (elo.py lines 207-223):
composite ratings, one pairwise update, the same delta for every member of
a team, counter bump. -/
def doublesBody (pow10 : ℚ → ℚ) (st : EloState α) (team1 team2 : List α)
    (res : ℚ) : EloState α :=
  let r1 := teamMean st team1
  let r2 := teamMean st team2
  let u := update_elo pow10 r1 r2 res
  let st1 := applyDelta st.matchNumber (fun _ => u.1 - r1) st team1
  let st2 := applyDelta st1.matchNumber (fun _ => u.2 - r2) st1 team2
  ⟨st2.keys, st2.rating, st2.history, st2.matchNumber + 1⟩

/-- One iteration of the doubles loop (elo.py lines 198-223).  The skip
check (equal scores or intersecting teams, line 204) runs before any dict
access, so a skipped match registers nobody. -/
def doublesStep (pow10 : ℚ → ℚ) (st : EloState α) (m : TeamMatch α) : EloState α :=
  if m.score1 = m.score2 ∨ m.team1 ∩ m.team2 ≠ [] then st
  else doublesBody pow10 st m.team1 m.team2 (if m.score1 > m.score2 then 1 else 0)

/-- `compute_doubles_ratings(matches, players)` (elo.py lines 176-225). -/
def compute_doubles_ratings (pow10 : ℚ → ℚ) (ms : List (TeamMatch α))
    (seed : List α) : EloState α :=
  ms.foldl (doublesStep pow10) (initState seed)

/-- One entry of an FFA match's `results` list: `{player, score, rank}`. -/
structure FfaResult (α : Type) where
  player : α
  score : ℤ
  rank : ℤ

/-- One FFA match record `{results: [...]}`. -/
structure FfaMatch (α : Type) where
  results : List (FfaResult α)

/-- The head-to-head outcome for the row with rank `ri` against the row with
rank `rj`: lower rank wins, equal ranks draw (elo.py lines 279-284). -/
def ffaOutcome (ri rj : ℤ) : ℚ :=
  if ri < rj then 1 else if rj < ri then 0 else 1 / 2

/-- The two `elo_deltas` accumulations for one ordered pair `(ti, tj)` of
result rows (elo.py lines 286-288).  `R` is the ratings read (constant
during the pair loop, since no rating is assigned before line 292). -/
def pairTerms (pow10 : ℚ → ℚ) (R : α → ℚ) (w : ℚ) (ti tj : FfaResult α)
    (d : α → ℚ) : α → ℚ :=
  let ei := expected_score pow10 (R ti.player) (R tj.player)
  let oi := ffaOutcome ti.rank tj.rank
  let d1 := Function.update d ti.player (d ti.player + K * w * (oi - ei))
  Function.update d1 tj.player (d1 tj.player + K * w * ((1 - oi) - (1 - ei)))

/-- The nested `for i / for j in range(i+1, n)` accumulation of elo.py lines
268-288: for each row, fold the pair terms against every later row. -/
def ffaAccum (pow10 : ℚ → ℚ) (R : α → ℚ) (w : ℚ) :
    List (FfaResult α) → (α → ℚ) → (α → ℚ)
  | [], d => d
  | t :: ts, d => ffaAccum pow10 R w ts
      (ts.foldl (fun acc u => pairTerms pow10 R w t u acc) d)

/-- One FFA match on an explicit results list (elo.py lines 258-295): skip
when fewer than 2 results, otherwise accumulate all pairwise deltas against
the pre-match ratings, then apply them and bump the counter once. -/
def ffaStepList (pow10 : ℚ → ℚ) (st : EloState α)
    (results : List (FfaResult α)) : EloState α :=
  if results.length < 2 then st
  else
    let w : ℚ := 1 / ((results.length : ℚ) - 1)
    let d := ffaAccum pow10 st.rating w results (fun _ => 0)
    let st1 := applyDelta st.matchNumber d st (results.map FfaResult.player)
    ⟨st1.keys, st1.rating, st1.history, st1.matchNumber + 1⟩

/-- One iteration of the FFA loop over a match record. -/
def ffaStep (pow10 : ℚ → ℚ) (st : EloState α) (m : FfaMatch α) : EloState α :=
  ffaStepList pow10 st m.results

/-- `compute_ffa_ratings(matches, players)` (elo.py lines 232-297). -/
def compute_ffa_ratings (pow10 : ℚ → ℚ) (ms : List (FfaMatch α))
    (seed : List α) : EloState α :=
  ms.foldl (ffaStep pow10) (initState seed)

/-! ### Raw (dynamically typed) match records

The computers receive JSON-decoded dicts, so a record can miss keys or carry
scores of the wrong type.  `RawSingles`, `RawDoubles` and `RawFfa` model
that: every key is an `Option`, and a score is a Python value that is either
an int or a str.  The step functions below re-trace elo.py on such records:
a dict subscript on a missing key is a `KeyError`, `==` between an int and a
str is `False`, `>` between an int and a str is a `TypeError`, and `>`
between two strs compares code points lexicographically, as Python does. -/

/-- A dynamically typed Python scalar (the cases that can reach a score
field from JSON input: numbers and strings). -/
inductive PyVal where
  | int : ℤ → PyVal
  | str : List Char → PyVal
deriving DecidableEq

/-- Python `==` on scalars: cross-type comparisons are `False`. -/
def pyEq : PyVal → PyVal → Bool
  | PyVal.int a, PyVal.int b => a == b
  | PyVal.str a, PyVal.str b => a == b
  | _, _ => false

/-- Python code-point-lexicographic `<` on strings. -/
def pyStrLt : List Char → List Char → Bool
  | [], [] => false
  | [], _ :: _ => true
  | _ :: _, [] => false
  | a :: as, b :: bs =>
      if a.val < b.val then true
      else if b.val < a.val then false
      else pyStrLt as bs

/-- Python `>` on scalars: defined within a type, a `TypeError` across
types. -/
def pyGt : PyVal → PyVal → Except String Bool
  | PyVal.int a, PyVal.int b => Except.ok (a > b)
  | PyVal.str a, PyVal.str b => Except.ok (pyStrLt b a)
  | _, _ => Except.error ("TypeError: unorderable types")

/-- `record[key]`: raises `KeyError` when the key is missing. -/
def keyOf (o : Option β) (k : String) : Except String β :=
  match o with
  | some v => Except.ok v
  | none => Except.error ("KeyError: " ++ k)

/-- A singles record as decoded from JSON: any key may be missing and the
scores are dynamically typed. -/
structure RawSingles (α : Type) where
  player1 : Option α := none
  player2 : Option α := none
  score1 : Option PyVal := none
  score2 : Option PyVal := none

/-- One iteration of the singles loop on a raw record, with Python's
failure behaviour (elo.py lines 146-167). -/
def rawSinglesStep (pow10 : ℚ → ℚ) (st : EloState α) (m : RawSingles α) :
    Except String (EloState α) := do
  let p1 ← keyOf m.player1 ("player1")
  let p2 ← keyOf m.player2 ("player2")
  let s1 ← keyOf m.score1 ("score1")
  let s2 ← keyOf m.score2 ("score2")
  let st1 := register (register st p1) p2
  if pyEq s1 s2 then
    return st1
  else do
    let gt ← pyGt s1 s2
    if gt then return singlesBody pow10 st1 p1 p2
    else return singlesBody pow10 st1 p2 p1

/-- `compute_singles_ratings` on raw records; a raised exception aborts the
whole call, so no partially mutated state is ever returned. -/
def compute_singles_raw (pow10 : ℚ → ℚ) (ms : List (RawSingles α))
    (seed : List α) : Except String (EloState α) :=
  ms.foldlM (rawSinglesStep pow10) (initState seed)

/-- A doubles record as decoded from JSON. -/
structure RawDoubles (α : Type) where
  team1 : Option (List α) := none
  team2 : Option (List α) := none
  score1 : Option PyVal := none
  score2 : Option PyVal := none

/-- One iteration of the doubles loop on a raw record (elo.py lines
198-223): the four subscripts run first, then the skip test, then the
score comparison. -/
def rawDoublesStep (pow10 : ℚ → ℚ) (st : EloState α) (m : RawDoubles α) :
    Except String (EloState α) := do
  let t1 ← keyOf m.team1 ("team1")
  let t2 ← keyOf m.team2 ("team2")
  let s1 ← keyOf m.score1 ("score1")
  let s2 ← keyOf m.score2 ("score2")
  if pyEq s1 s2 then
    return st
  else if t1 ∩ t2 ≠ [] then
    return st
  else do
    let gt ← pyGt s1 s2
    return doublesBody pow10 st t1 t2 (if gt then 1 else 0)

/-- `compute_doubles_ratings` on raw records. -/
def compute_doubles_raw (pow10 : ℚ → ℚ) (ms : List (RawDoubles α))
    (seed : List α) : Except String (EloState α) :=
  ms.foldlM (rawDoublesStep pow10) (initState seed)

/-- An FFA record as decoded from JSON.  The computer reads the results
list with `match.get("results", [])` (elo.py line 259), so a missing key is
not a subscript error. -/
structure RawFfa (α : Type) where
  results : Option (List (FfaResult α)) := none

/-- One iteration of the FFA loop on a raw record: `.get` substitutes the
empty list, which then falls into the fewer-than-2-results skip. -/
def rawFfaStep (pow10 : ℚ → ℚ) (st : EloState α) (m : RawFfa α) : EloState α :=
  ffaStepList pow10 st (m.results.getD [])

/-- `compute_ffa_ratings` on raw records; note the `Except`-free type: no
branch of the FFA loop can raise on a record whose `results` rows are
well-formed, whether or not the key itself is present. -/
def compute_ffa_raw (pow10 : ℚ → ℚ) (ms : List (RawFfa α))
    (seed : List α) : EloState α :=
  ms.foldl (rawFfaStep pow10) (initState seed)

/-! ### Predicates and decompositions used by the theorems -/

/-- States whose absent keys still carry the default values; this holds of
every state the computers ever construct, and is what makes a default-dict
read of an absent key agree with the value function. -/
def Defaulted (st : EloState α) : Prop :=
  ∀ p, p ∉ st.keys →
    st.rating p = DEFAULT_RATING ∧ st.history p = [(0, DEFAULT_RATING)]

/-- The net contribution of the ordered pair `(ti, tj)` of the `elo_deltas`
loop to player `p`'s delta (elo.py lines 286-288, read additively). -/
def pairContrib (pow10 : ℚ → ℚ) (R : α → ℚ) (w : ℚ) (ti tj : FfaResult α)
    (p : α) : ℚ :=
  (if p = ti.player then
      K * w * (ffaOutcome ti.rank tj.rank -
        expected_score pow10 (R ti.player) (R tj.player))
    else 0) +
  (if p = tj.player then
      K * w * ((1 - ffaOutcome ti.rank tj.rank) -
        (1 - expected_score pow10 (R ti.player) (R tj.player)))
    else 0)

/-- The total contribution to player `p` over all pairs `i < j` of a results
list, in the order the nested loops of elo.py lines 268-269 visit them. -/
def pairSum (f : FfaResult α → FfaResult α → α → ℚ) :
    List (FfaResult α) → α → ℚ
  | [], _ => 0
  | t :: ts, p => (ts.map (fun u => f t u p)).sum + pairSum f ts p

/-- How many singles matches the replay accepts (unequal scores). -/
def acceptedCountSingles (ms : List (SinglesMatch α)) : ℕ :=
  ms.countP (fun m => decide (¬ m.score1 = m.score2))

/-- How many team matches the replay accepts (unequal scores, disjoint
teams). -/
def acceptedCountDoubles (ms : List (TeamMatch α)) : ℕ :=
  ms.countP (fun m => decide (¬ (m.score1 = m.score2 ∨ m.team1 ∩ m.team2 ≠ [])))

/-- How many FFA matches the replay accepts (at least two results). -/
def acceptedCountFfa (ms : List (FfaMatch α)) : ℕ :=
  ms.countP (fun m => decide (¬ m.results.length < 2))

/-- A well-formed history under counter value `n`: it starts at the
baseline `(0, 1000)`, its sequence numbers strictly increase, and they all
lie below `n`. -/
def HistOK (n : ℕ) (h : List (ℕ × ℚ)) : Prop :=
  h.head? = some (0, DEFAULT_RATING) ∧
  List.Chain' (fun a b => a.1 < b.1) h ∧
  ∀ e ∈ h, e.1 < n

/-- The running invariant for C9: the counter has started (it begins at 1)
and every player's history is well formed under it. -/
def HistInv (st : EloState α) : Prop :=
  1 ≤ st.matchNumber ∧ ∀ p, HistOK st.matchNumber (st.history p)

/-- Sanity example: one match between two fresh players with `pow10 0 = 1`. -/
example :
    (compute_singles_ratings (fun _ => 1) [⟨0, 1, 11, 5⟩] ([] : List ℕ)).rating 0 = 1016 := by
  norm_num [compute_singles_ratings, initState, emptyState, singlesStep, register,
    singlesBody, update_elo, expected_score, K, DEFAULT_RATING, round2,
    Function.update_apply, round_eq]

/-! ### Supporting lemmas -/

theorem round2_close (x : ℚ) : |round2 x - x| ≤ 1 / 200 := by
  have h := abs_sub_round (x * 100)
  have e : round2 x - x = -((x * 100 - (round (x * 100) : ℚ)) / 100) := by
    rw [round2]; ring
  rw [e, abs_neg, abs_div, abs_of_pos (show (0 : ℚ) < 100 by norm_num)]
  linarith

theorem register_matchNumber (st : EloState α) (p : α) :
    (register st p).matchNumber = st.matchNumber := by
  unfold register; split <;> rfl

theorem mem_register_keys (st : EloState α) (p q : α) :
    q ∈ (register st p).keys ↔ q = p ∨ q ∈ st.keys := by
  unfold register; split
  · rename_i h
    constructor
    · exact fun hq => Or.inr hq
    · rintro (rfl | hq) <;> [exact h; exact hq]
  · simp only [List.mem_append, List.mem_singleton]
    tauto

theorem foldl_register_rating (seed : List α) (st : EloState α)
    (h : ∀ p, st.rating p = DEFAULT_RATING) (p : α) :
    (seed.foldl register st).rating p = DEFAULT_RATING := by
  induction seed generalizing st with
  | nil => exact h p
  | cons q qs ih =>
      refine ih (register st q) ?_
      intro r
      unfold register; split
      · exact h r
      · dsimp only
        rw [Function.update_apply]
        split <;> [rfl; exact h r]

theorem foldl_register_history (seed : List α) (st : EloState α)
    (h : ∀ p, st.history p = [(0, DEFAULT_RATING)]) (p : α) :
    (seed.foldl register st).history p = [(0, DEFAULT_RATING)] := by
  induction seed generalizing st with
  | nil => exact h p
  | cons q qs ih =>
      refine ih (register st q) ?_
      intro r
      unfold register; split
      · exact h r
      · dsimp only
        rw [Function.update_apply]
        split <;> [rfl; exact h r]

theorem foldl_register_keys (seed : List α) (st : EloState α) (p : α) :
    p ∈ (seed.foldl register st).keys ↔ p ∈ st.keys ∨ p ∈ seed := by
  induction seed generalizing st with
  | nil => simp
  | cons q qs ih =>
      rw [List.foldl_cons, ih, mem_register_keys]
      simp only [List.mem_cons]
      tauto

theorem foldl_register_matchNumber (seed : List α) (st : EloState α) :
    (seed.foldl register st).matchNumber = st.matchNumber := by
  induction seed generalizing st with
  | nil => rfl
  | cons q qs ih => rw [List.foldl_cons, ih, register_matchNumber]

theorem initState_rating (seed : List α) (p : α) :
    (initState seed).rating p = DEFAULT_RATING :=
  foldl_register_rating seed emptyState (fun _ => rfl) p

theorem initState_history (seed : List α) (p : α) :
    (initState seed).history p = [(0, DEFAULT_RATING)] :=
  foldl_register_history seed emptyState (fun _ => rfl) p

theorem initState_keys (seed : List α) (p : α) :
    p ∈ (initState seed).keys ↔ p ∈ seed := by
  rw [initState, foldl_register_keys]
  simp [emptyState]

theorem initState_matchNumber (seed : List α) :
    (initState seed).matchNumber = 1 :=
  foldl_register_matchNumber seed emptyState

/-! ### C1 -/

/-- C1: for all ratings `ra, rb` and every `result_a`, the pairwise update
returns exactly `(ra + K * (result_a - expected_a), rb + K * ((1 - result_a)
- (1 - expected_a)))` with `expected_a = 1 / (1 + pow10 ((rb - ra) / 400))`
and `K = 32`, with no clamping (`pow10` stands for the transcendental
`10 ^ ·`, abstracted as a parameter). -/
theorem C1_pairwise_update_formula (pow10 : ℚ → ℚ) (ra rb result_a : ℚ) :
    update_elo pow10 ra rb result_a =
      (ra + 32 * (result_a - 1 / (1 + pow10 ((rb - ra) / 400))),
       rb + 32 * ((1 - result_a) - (1 - 1 / (1 + pow10 ((rb - ra) / 400))))) := by
  simp [update_elo, expected_score, K]

/-! ### C8 -/

/-- C8: the pairwise update is exactly zero-sum before rounding, and the
two ratings the singles computer stores (each new rating rounded to 2
decimal places) sum to the old ratings up to 1/100. -/
theorem C8_zero_sum (pow10 : ℚ → ℚ) (ra rb result_a : ℚ) :
    ((update_elo pow10 ra rb result_a).1 - ra) +
      ((update_elo pow10 ra rb result_a).2 - rb) = 0 ∧
    |(round2 (update_elo pow10 ra rb result_a).1 - ra) +
      (round2 (update_elo pow10 ra rb result_a).2 - rb)| ≤ 1 / 100 := by
  have hz : ((update_elo pow10 ra rb result_a).1 - ra) +
      ((update_elo pow10 ra rb result_a).2 - rb) = 0 := by
    simp [update_elo]; ring
  refine ⟨hz, ?_⟩
  have h1 := round2_close (update_elo pow10 ra rb result_a).1
  have h2 := round2_close (update_elo pow10 ra rb result_a).2
  have e : (round2 (update_elo pow10 ra rb result_a).1 - ra) +
      (round2 (update_elo pow10 ra rb result_a).2 - rb) =
      (round2 (update_elo pow10 ra rb result_a).1 -
        (update_elo pow10 ra rb result_a).1) +
      (round2 (update_elo pow10 ra rb result_a).2 -
        (update_elo pow10 ra rb result_a).2) := by
    linarith
  rw [e]
  refine le_trans (abs_add _ _) ?_
  linarith

/-! ### C10 -/

/-- C10: with an empty match list, each of the three computers returns
rating exactly 1000 and history exactly `[(0, 1000)]` for every seeded
player, and only the seeded players appear in the output key set. -/
theorem C10_empty_match_list (pow10 : ℚ → ℚ) (seed : List α) :
    ((∀ p, (compute_singles_ratings pow10 [] seed).rating p = 1000 ∧
        (compute_singles_ratings pow10 [] seed).history p = [(0, 1000)]) ∧
      ∀ p, p ∈ (compute_singles_ratings pow10 [] seed).keys ↔ p ∈ seed) ∧
    ((∀ p, (compute_doubles_ratings pow10 [] seed).rating p = 1000 ∧
        (compute_doubles_ratings pow10 [] seed).history p = [(0, 1000)]) ∧
      ∀ p, p ∈ (compute_doubles_ratings pow10 [] seed).keys ↔ p ∈ seed) ∧
    ((∀ p, (compute_ffa_ratings pow10 [] seed).rating p = 1000 ∧
        (compute_ffa_ratings pow10 [] seed).history p = [(0, 1000)]) ∧
      ∀ p, p ∈ (compute_ffa_ratings pow10 [] seed).keys ↔ p ∈ seed) := by
  refine ⟨⟨fun p => ⟨?_, ?_⟩, fun p => ?_⟩, ⟨fun p => ⟨?_, ?_⟩, fun p => ?_⟩,
    ⟨fun p => ⟨?_, ?_⟩, fun p => ?_⟩⟩ <;>
    first
      | exact initState_rating seed p
      | exact initState_history seed p
      | exact initState_keys seed p

/-! ### C7 -/

/-- C7: a 2-player FFA match between two fresh (rating-1000) players with
ranks 1 and 2 reproduces exactly the singles result: 1016 for the rank-1
player, 984 for the rank-2 player.  `pow10 0 = 1` is the one fact about the
abstracted `10 ^ ·` the computation touches (`10 ^ 0 = 1`, exact even in
floating point). -/
theorem C7_two_player_ffa (pow10 : ℚ → ℚ) (h0 : pow10 0 = 1) (a b : α)
    (hab : a ≠ b) (sa sb : ℤ) :
    (compute_ffa_ratings pow10 [⟨[⟨a, sa, 1⟩, ⟨b, sb, 2⟩]⟩] []).rating a = 1016 ∧
    (compute_ffa_ratings pow10 [⟨[⟨a, sa, 1⟩, ⟨b, sb, 2⟩]⟩] []).rating b = 984 := by
  have hba : b ≠ a := Ne.symm hab
  constructor <;>
    norm_num [compute_ffa_ratings, initState, emptyState, ffaStep, ffaStepList,
      ffaAccum, pairTerms, applyDelta, ffaOutcome, expected_score, K,
      DEFAULT_RATING, h0, Function.update_apply, hab, hba, round2, round_eq]

/-- Witness for C7 at `pow10 = const 1`, players `0 ≠ 1`. -/
theorem C7_two_player_ffa_witness :
    (compute_ffa_ratings (fun _ => 1) [⟨[⟨0, 10, 1⟩, ⟨1, 5, 2⟩]⟩] ([] : List ℕ)).rating 0 = 1016 ∧
    (compute_ffa_ratings (fun _ => 1) [⟨[⟨0, 10, 1⟩, ⟨1, 5, 2⟩]⟩] ([] : List ℕ)).rating 1 = 984 :=
  C7_two_player_ffa (fun _ => 1) rfl 0 1 (by decide) 10 5

/-! ### C4 -/

omit [DecidableEq α] in
theorem Defaulted_emptyState : Defaulted (emptyState : EloState α) :=
  fun _ _ => ⟨rfl, rfl⟩

theorem register_rating_fun (st : EloState α) (hd : Defaulted st) (p : α) :
    (register st p).rating = st.rating := by
  unfold register; split
  · rfl
  · rename_i h
    dsimp only
    funext q
    rw [Function.update_apply]
    split
    · rename_i hq; subst hq; exact ((hd q h).1).symm
    · rfl

theorem register_history_fun (st : EloState α) (hd : Defaulted st) (p : α) :
    (register st p).history = st.history := by
  unfold register; split
  · rfl
  · rename_i h
    dsimp only
    funext q
    rw [Function.update_apply]
    split
    · rename_i hq; subst hq; exact ((hd q h).2).symm
    · rfl

theorem Defaulted_register (st : EloState α) (hd : Defaulted st) (p : α) :
    Defaulted (register st p) := by
  intro q hq
  rw [register_rating_fun st hd p, register_history_fun st hd p]
  refine hd q ?_
  intro hmem
  exact hq ((mem_register_keys st p q).2 (Or.inr hmem))

/-- C4, counterexample to the claim as stated: a tied singles match does
not leave the state unchanged — it registers its not-yet-seen players
(elo.py lines 150-153 run before the tie skip at 155), so the key set
grows. -/
theorem C4_skip_counterexample :
    singlesStep (fun _ => 1) (initState ([] : List ℕ)) ⟨0, 1, 3, 3⟩ ≠
      initState [] := by
  intro h
  have hk := congrArg EloState.keys h
  simp [singlesStep, register, initState, emptyState] at hk

/-- C4 as amended: a skipped singles match (equal scores) changes no
player's effective rating or history and does not advance the counter —
though it may still register fresh participants at the baseline, so only
the key set can change; a skipped team match (equal scores or overlapping
teams) leaves the state entirely unchanged. -/
theorem C4_skip_frame (pow10 : ℚ → ℚ) (st : EloState α) (hd : Defaulted st) :
    (∀ m : SinglesMatch α, m.score1 = m.score2 →
      (singlesStep pow10 st m).rating = st.rating ∧
      (singlesStep pow10 st m).history = st.history ∧
      (singlesStep pow10 st m).matchNumber = st.matchNumber) ∧
    (∀ m : TeamMatch α, m.score1 = m.score2 ∨ m.team1 ∩ m.team2 ≠ [] →
      doublesStep pow10 st m = st) := by
  constructor
  · intro m hm
    have hd1 : Defaulted (register st m.player1) := Defaulted_register st hd _
    have hstep : singlesStep pow10 st m =
        register (register st m.player1) m.player2 := by
      unfold singlesStep
      rw [if_pos hm]
    refine ⟨?_, ?_, ?_⟩
    · rw [hstep, register_rating_fun _ hd1, register_rating_fun _ hd]
    · rw [hstep, register_history_fun _ hd1, register_history_fun _ hd]
    · rw [hstep, register_matchNumber, register_matchNumber]
  · intro m hm
    unfold doublesStep
    rw [if_pos hm]

/-- Witness for C4's amended statement: a concrete tied singles match and a
concrete tied team match over `ℕ` players. -/
theorem C4_skip_frame_witness :
    (singlesStep (fun _ => 1) (emptyState : EloState ℕ) ⟨0, 1, 3, 3⟩).rating =
      (emptyState : EloState ℕ).rating ∧
    doublesStep (fun _ => 1) (emptyState : EloState ℕ) ⟨[0], [1], 2, 2⟩ =
      emptyState :=
  ⟨((C4_skip_frame (fun _ => 1) emptyState Defaulted_emptyState).1
      ⟨0, 1, 3, 3⟩ rfl).1,
   (C4_skip_frame (fun _ => 1) emptyState Defaulted_emptyState).2
      ⟨[0], [1], 2, 2⟩ (Or.inl rfl)⟩

/-! ### Closed forms for `applyDelta` -/

theorem applyDelta_matchNumber (n : ℕ) (d : α → ℚ) (ps : List α)
    (st : EloState α) : (applyDelta n d st ps).matchNumber = st.matchNumber := by
  induction ps generalizing st with
  | nil => rfl
  | cons q qs ih => exact ih _

theorem applyDelta_rating (n : ℕ) (d : α → ℚ) (ps : List α) (st : EloState α)
    (hnd : ps.Nodup) (p : α) :
    (applyDelta n d st ps).rating p =
      if p ∈ ps then round2 (st.rating p + d p) else st.rating p := by
  induction ps generalizing st with
  | nil => simp [applyDelta]
  | cons q qs ih =>
      rcases List.nodup_cons.1 hnd with ⟨hq, hqs⟩
      rw [show applyDelta n d st (q :: qs) =
        applyDelta n d
          ⟨if q ∈ st.keys then st.keys else st.keys ++ [q],
           Function.update st.rating q (round2 (st.rating q + d q)),
           Function.update st.history q
             (st.history q ++ [(n, round2 (st.rating q + d q))]),
           st.matchNumber⟩ qs from rfl]
      rw [ih _ hqs]
      by_cases hpq : p = q
      · subst hpq
        rw [if_neg hq, if_pos (List.mem_cons_self p qs)]
        dsimp only
        rw [Function.update_same]
      · dsimp only
        rw [Function.update_noteq hpq]
        by_cases hpqs : p ∈ qs
        · rw [if_pos hpqs, if_pos (List.mem_cons.2 (Or.inr hpqs))]
        · rw [if_neg hpqs, if_neg (by simp [hpq, hpqs])]

theorem applyDelta_history (n : ℕ) (d : α → ℚ) (ps : List α) (st : EloState α)
    (hnd : ps.Nodup) (p : α) :
    (applyDelta n d st ps).history p =
      if p ∈ ps then st.history p ++ [(n, round2 (st.rating p + d p))]
      else st.history p := by
  induction ps generalizing st with
  | nil => simp [applyDelta]
  | cons q qs ih =>
      rcases List.nodup_cons.1 hnd with ⟨hq, hqs⟩
      rw [show applyDelta n d st (q :: qs) =
        applyDelta n d
          ⟨if q ∈ st.keys then st.keys else st.keys ++ [q],
           Function.update st.rating q (round2 (st.rating q + d q)),
           Function.update st.history q
             (st.history q ++ [(n, round2 (st.rating q + d q))]),
           st.matchNumber⟩ qs from rfl]
      rw [ih _ hqs]
      by_cases hpq : p = q
      · subst hpq
        rw [if_neg hq, if_pos (List.mem_cons_self p qs)]
        dsimp only
        rw [Function.update_same]
      · dsimp only
        rw [Function.update_noteq hpq, Function.update_noteq hpq]
        by_cases hpqs : p ∈ qs
        · rw [if_pos hpqs, if_pos (List.mem_cons.2 (Or.inr hpqs))]
        · rw [if_neg hpqs, if_neg (by simp [hpq, hpqs])]

theorem applyDelta_keys_mono (n : ℕ) (d : α → ℚ) (ps : List α)
    (st : EloState α) (p : α) (h : p ∈ st.keys) :
    p ∈ (applyDelta n d st ps).keys := by
  induction ps generalizing st with
  | nil => exact h
  | cons q qs ih =>
      refine ih ⟨_, _, _, _⟩ ?_
      dsimp only
      split
      · exact h
      · exact List.mem_append_left _ h

theorem mem_applyDelta_keys (n : ℕ) (d : α → ℚ) (ps : List α)
    (st : EloState α) (p : α) (h : p ∈ ps) :
    p ∈ (applyDelta n d st ps).keys := by
  induction ps generalizing st with
  | nil => cases h
  | cons q qs ih =>
      rcases List.mem_cons.1 h with rfl | h'
      · refine applyDelta_keys_mono n d qs _ p ?_
        dsimp only
        split
        · assumption
        · exact List.mem_append_right _ (List.mem_singleton.2 rfl)
      · exact ih _ h'

/-! ### Key-set monotonicity of the three steps -/

theorem singlesBody_keys (pow10 : ℚ → ℚ) (st : EloState α) (w l : α) :
    (singlesBody pow10 st w l).keys = st.keys := rfl

theorem singlesStep_keys (pow10 : ℚ → ℚ) (st : EloState α) (m : SinglesMatch α) :
    (singlesStep pow10 st m).keys =
      (register (register st m.player1) m.player2).keys := by
  unfold singlesStep
  split
  · rfl
  · split <;> rfl

theorem singlesStep_keys_mono (pow10 : ℚ → ℚ) (st : EloState α)
    (m : SinglesMatch α) (p : α) (h : p ∈ st.keys) :
    p ∈ (singlesStep pow10 st m).keys := by
  rw [singlesStep_keys, mem_register_keys, mem_register_keys]
  exact Or.inr (Or.inr h)

theorem doublesStep_keys_mono (pow10 : ℚ → ℚ) (st : EloState α)
    (m : TeamMatch α) (p : α) (h : p ∈ st.keys) :
    p ∈ (doublesStep pow10 st m).keys := by
  unfold doublesStep
  split
  · exact h
  · exact applyDelta_keys_mono _ _ _ _ p (applyDelta_keys_mono _ _ _ _ p h)

theorem ffaStep_keys_mono (pow10 : ℚ → ℚ) (st : EloState α) (m : FfaMatch α)
    (p : α) (h : p ∈ st.keys) : p ∈ (ffaStep pow10 st m).keys := by
  unfold ffaStep ffaStepList
  split
  · exact h
  · exact applyDelta_keys_mono _ _ _ _ p h

omit [DecidableEq α] in
theorem foldl_keys_mono {M : Type} (step : EloState α → M → EloState α)
    (hmono : ∀ (s : EloState α) (m : M) (p : α), p ∈ s.keys → p ∈ (step s m).keys)
    (l : List M) (st : EloState α) (p : α) (h : p ∈ st.keys) :
    p ∈ (l.foldl step st).keys := by
  induction l generalizing st with
  | nil => exact h
  | cons a l ih => exact ih _ (hmono st a p h)

omit [DecidableEq α] in
theorem mem_foldl_keys {M : Type} (step : EloState α → M → EloState α)
    (hmono : ∀ (s : EloState α) (m : M) (p : α), p ∈ s.keys → p ∈ (step s m).keys)
    (l : List M) (st : EloState α) (m : M) (hm : m ∈ l) (p : α)
    (hp : ∀ s : EloState α, p ∈ (step s m).keys) :
    p ∈ (l.foldl step st).keys := by
  induction l generalizing st with
  | nil => cases hm
  | cons a l ih =>
      rcases List.mem_cons.1 hm with rfl | hm'
      · exact foldl_keys_mono step hmono l _ p (hp st)
      · exact ih _ hm'

/-! ### C6 -/

/-- C6, counterexample to the claim as stated: in the team computer the
skip test (elo.py line 204) runs before any dict access, so the players of
a skipped team match (here an equal-score match) are never registered —
player 0 appears in the match list but not in the output. -/
theorem C6_lazy_registration_counterexample :
    (0 : ℕ) ∉ (compute_doubles_ratings (fun _ => 1) [⟨[0], [1], 3, 3⟩] []).keys := by
  decide

/-- C6 as amended: the singles computer registers every participant of
every record — including skipped (tied) ones — before processing, so all of
them appear in the output; the team computer registers a participant only
when one of their matches is accepted, so every member of every accepted
team match appears in the output (but participants of skipped team matches
need not). -/
theorem C6_lazy_registration (pow10 : ℚ → ℚ) :
    (∀ (ms : List (SinglesMatch α)) (seed : List α) (m : SinglesMatch α),
      m ∈ ms →
      m.player1 ∈ (compute_singles_ratings pow10 ms seed).keys ∧
      m.player2 ∈ (compute_singles_ratings pow10 ms seed).keys) ∧
    (∀ (ms : List (TeamMatch α)) (seed : List α) (m : TeamMatch α),
      m ∈ ms → ¬(m.score1 = m.score2 ∨ m.team1 ∩ m.team2 ≠ []) →
      ∀ p, p ∈ m.team1 ∨ p ∈ m.team2 →
      p ∈ (compute_doubles_ratings pow10 ms seed).keys) := by
  constructor
  · intro ms seed m hm
    constructor
    · refine mem_foldl_keys _ (singlesStep_keys_mono pow10) ms _ m hm _ ?_
      intro s
      rw [singlesStep_keys, mem_register_keys, mem_register_keys]
      tauto
    · refine mem_foldl_keys _ (singlesStep_keys_mono pow10) ms _ m hm _ ?_
      intro s
      rw [singlesStep_keys, mem_register_keys]
      tauto
  · intro ms seed m hm hacc p hp
    refine mem_foldl_keys _ (doublesStep_keys_mono pow10) ms _ m hm _ ?_
    intro s
    unfold doublesStep
    rw [if_neg hacc]
    unfold doublesBody
    rcases hp with hp | hp
    · exact applyDelta_keys_mono _ _ _ _ p (mem_applyDelta_keys _ _ _ _ p hp)
    · exact mem_applyDelta_keys _ _ _ _ p hp

/-- Witness for C6's amended statement: a tied singles match still surfaces
both (fresh) players in the output; an accepted team match surfaces all
four. -/
theorem C6_lazy_registration_witness :
    (0 : ℕ) ∈ (compute_singles_ratings (fun _ => 1) [⟨0, 1, 3, 3⟩] ([] : List ℕ)).keys ∧
    (2 : ℕ) ∈ (compute_doubles_ratings (fun _ => 1) [⟨[0, 1], [2, 3], 5, 3⟩] ([] : List ℕ)).keys :=
  ⟨((C6_lazy_registration (fun _ => 1)).1 [⟨0, 1, 3, 3⟩] [] ⟨0, 1, 3, 3⟩
      (List.mem_singleton.2 rfl)).1,
   (C6_lazy_registration (fun _ => 1)).2 [⟨[0, 1], [2, 3], 5, 3⟩] []
      ⟨[0, 1], [2, 3], 5, 3⟩ (List.mem_singleton.2 rfl) (by decide) 2
      (Or.inr (by decide))⟩

/-! ### C2 -/

/-- C2: for an accepted team match (disjoint teams, unequal scores), each
team's composite is the arithmetic mean of its members' current ratings,
one pairwise update is applied to the composites with result 1 iff team 1's
score is higher, and every member of a team gets the same increment — the
team's composite delta — added to their old rating and rounded to 2
decimals. -/
theorem C2_team_composite_update (pow10 : ℚ → ℚ) (st : EloState α)
    (m : TeamMatch α) (hnd : (m.team1 ++ m.team2).Nodup)
    (hs : m.score1 ≠ m.score2) :
    (∀ p ∈ m.team1,
      (doublesStep pow10 st m).rating p =
        round2 (st.rating p +
          ((update_elo pow10 ((m.team1.map st.rating).sum / (m.team1.length : ℚ))
              ((m.team2.map st.rating).sum / (m.team2.length : ℚ))
              (if m.score1 > m.score2 then 1 else 0)).1 -
            (m.team1.map st.rating).sum / (m.team1.length : ℚ)))) ∧
    (∀ p ∈ m.team2,
      (doublesStep pow10 st m).rating p =
        round2 (st.rating p +
          ((update_elo pow10 ((m.team1.map st.rating).sum / (m.team1.length : ℚ))
              ((m.team2.map st.rating).sum / (m.team2.length : ℚ))
              (if m.score1 > m.score2 then 1 else 0)).2 -
            (m.team2.map st.rating).sum / (m.team2.length : ℚ)))) := by
  obtain ⟨hnd1, hnd2, hdisj⟩ := List.nodup_append.1 hnd
  have hinter : m.team1 ∩ m.team2 = [] := List.Disjoint.inter_eq_nil hdisj
  have hacc : ¬(m.score1 = m.score2 ∨ m.team1 ∩ m.team2 ≠ []) := by
    push_neg
    exact ⟨hs, hinter⟩
  have hstep : doublesStep pow10 st m =
      doublesBody pow10 st m.team1 m.team2
        (if m.score1 > m.score2 then 1 else 0) := by
    unfold doublesStep
    rw [if_neg hacc]
  constructor
  · intro p hp
    have hp2 : p ∉ m.team2 := fun h => hdisj hp h
    rw [hstep]
    unfold doublesBody teamMean
    dsimp only
    rw [applyDelta_rating _ _ _ _ hnd2 p, if_neg hp2,
      applyDelta_rating _ _ _ _ hnd1 p, if_pos hp]
  · intro p hp
    have hp1 : p ∉ m.team1 := fun h => hdisj h hp
    rw [hstep]
    unfold doublesBody teamMean
    dsimp only
    rw [applyDelta_rating _ _ _ _ hnd2 p, if_pos hp,
      applyDelta_rating _ _ _ _ hnd1 p, if_neg hp1]

/-- Witness for C2: a fresh 2-vs-2 match, team 1 winning, so the winners
end at 1016 and the losers at 984. -/
theorem C2_team_composite_update_witness :
    (doublesStep (fun _ => 1) (emptyState : EloState ℕ) ⟨[0, 1], [2, 3], 5, 3⟩).rating 0 = 1016 ∧
    (doublesStep (fun _ => 1) (emptyState : EloState ℕ) ⟨[0, 1], [2, 3], 5, 3⟩).rating 2 = 984 := by
  have h := C2_team_composite_update (fun _ => 1) (emptyState : EloState ℕ)
    ⟨[0, 1], [2, 3], 5, 3⟩ (by decide) (by decide)
  have h0 := h.1 0 (by decide)
  have h2 := h.2 2 (by decide)
  rw [h0, h2]
  constructor <;>
    norm_num [emptyState, update_elo, expected_score, K, DEFAULT_RATING,
      round2, round_eq]

/-! ### C5 -/

theorem bind_ok_eq {β γ : Type} (v : β) (f : β → Except String γ) :
    (Except.ok v >>= f) = f v := rfl

theorem bind_error_eq {β γ : Type} (e : String) (f : β → Except String γ) :
    ((Except.error e : Except String β) >>= f) = Except.error e := rfl

theorem pure_eq_ok {β : Type} (v : β) :
    (pure v : Except String β) = Except.ok v := rfl

omit [DecidableEq α] in
theorem foldlM_cons_error {M : Type} {f : EloState α → M → Except String (EloState α)}
    {st : EloState α} {m : M} {rest : List M} {e : String}
    (hm : f st m = Except.error e) :
    (m :: rest).foldlM f st = Except.error e := by
  rw [show (m :: rest).foldlM f st = f st m >>= fun s => rest.foldlM f s from rfl,
    hm]
  rfl

/-- C5, counterexample to the claim as stated: (a) an FFA record with no
`results` key is silently skipped — `match.get("results", [])` (elo.py line
259) substitutes the empty list, which hits the `< 2` skip, and the run
completes without any error; (b) a singles record whose scores are the
strings "10" and "9" is neither an error nor a skip — Python compares the
strings lexicographically ("10" < "9"), so the record is processed as a
normal match with player2 recorded as the winner. -/
theorem C5_malformed_counterexample :
    compute_ffa_raw (fun _ => 1) [(⟨none⟩ : RawFfa ℕ)] [] = initState [] ∧
    (rawSinglesStep (fun _ => 1) (emptyState : EloState ℕ)
        ⟨some 0, some 1, some (PyVal.str "10".toList),
         some (PyVal.str "9".toList)⟩).map
      (fun s => (s.rating 0, s.rating 1, s.matchNumber)) =
      Except.ok (984, 1016, 2) := by
  constructor
  · rfl
  · have hne : ("10".toList == "9".toList) = false := by decide
    have hgt : pyStrLt ['9'] ['1', '0'] = false := by decide
    norm_num [rawSinglesStep, keyOf, pyEq, pyGt, hne, hgt, bind_ok_eq,
      bind_error_eq, pure_eq_ok, register, emptyState, singlesBody, update_elo,
      expected_score, K, DEFAULT_RATING, Function.update_apply, round2,
      round_eq, Except.map]

/-- C5 as amended: a singles or team record missing one of its four
required keys makes the whole computation fail with a `KeyError` naming the
key — fail-fast, so no partially mutated state is returned; mixed-type
scores (an int against a str) likewise fail with a `TypeError`; but an FFA
record missing its `results` key is silently skipped rather than an error,
and two same-type non-numeric (string) scores are compared
lexicographically and the record is processed as a normal match. -/
theorem C5_malformed_records (pow10 : ℚ → ℚ) :
    (∀ (st : EloState α) (m : RawSingles α) (rest : List (RawSingles α)),
      m.player1 = none ∨ m.player2 = none ∨ m.score1 = none ∨ m.score2 = none →
      ∃ e, (m :: rest).foldlM (rawSinglesStep pow10) st = Except.error e) ∧
    (∀ (st : EloState α) (m : RawDoubles α) (rest : List (RawDoubles α)),
      m.team1 = none ∨ m.team2 = none ∨ m.score1 = none ∨ m.score2 = none →
      ∃ e, (m :: rest).foldlM (rawDoublesStep pow10) st = Except.error e) ∧
    (∀ (st : EloState α) (rest : List (RawFfa α)),
      (RawFfa.mk none :: rest).foldl (rawFfaStep pow10) st =
        rest.foldl (rawFfaStep pow10) st) ∧
    (∀ (st : EloState α) (p1 p2 : α) (i : ℤ) (s : List Char)
        (rest : List (RawSingles α)),
      ∃ e, (RawSingles.mk (some p1) (some p2) (some (PyVal.int i))
          (some (PyVal.str s)) :: rest).foldlM (rawSinglesStep pow10) st =
        Except.error e) ∧
    (∀ (st : EloState α) (p1 p2 : α) (a b : List Char), a ≠ b →
      ∃ st2, rawSinglesStep pow10 st
          (RawSingles.mk (some p1) (some p2) (some (PyVal.str a))
            (some (PyVal.str b))) = Except.ok st2 ∧
        st2.matchNumber = st.matchNumber + 1) := by
  refine ⟨?_, ?_, ?_, ?_, ?_⟩
  · intro st m rest h
    obtain ⟨op1, op2, os1, os2⟩ := m
    rcases op1 with _ | p1 <;> rcases op2 with _ | p2 <;>
      rcases os1 with _ | s1 <;> rcases os2 with _ | s2 <;>
      first
        | exact ⟨_, foldlM_cons_error rfl⟩
        | simp at h
  · intro st m rest h
    obtain ⟨ot1, ot2, os1, os2⟩ := m
    rcases ot1 with _ | t1 <;> rcases ot2 with _ | t2 <;>
      rcases os1 with _ | s1 <;> rcases os2 with _ | s2 <;>
      first
        | exact ⟨_, foldlM_cons_error rfl⟩
        | simp at h
  · intro st rest
    rfl
  · intro st p1 p2 i s rest
    exact ⟨_, foldlM_cons_error rfl⟩
  · intro st p1 p2 a b hab
    have hne : (a == b) = false := beq_eq_false_iff_ne.2 hab
    have hstep : rawSinglesStep pow10 st
        (RawSingles.mk (some p1) (some p2) (some (PyVal.str a))
          (some (PyVal.str b))) =
        if pyStrLt b a then
          Except.ok (singlesBody pow10 (register (register st p1) p2) p1 p2)
        else
          Except.ok (singlesBody pow10 (register (register st p1) p2) p2 p1) := by
      simp [rawSinglesStep, keyOf, pyEq, hne, pyGt, bind_ok_eq, pure_eq_ok]
    have hmn : ∀ w l : α,
        (singlesBody pow10 (register (register st p1) p2) w l).matchNumber =
          st.matchNumber + 1 := by
      intro w l
      show (register (register st p1) p2).matchNumber + 1 = st.matchNumber + 1
      rw [register_matchNumber, register_matchNumber]
    cases hgt : pyStrLt b a with
    | false =>
        refine ⟨singlesBody pow10 (register (register st p1) p2) p2 p1, ?_,
          hmn p2 p1⟩
        rw [hstep, hgt]
        rfl
    | true =>
        refine ⟨singlesBody pow10 (register (register st p1) p2) p1 p2, ?_,
          hmn p1 p2⟩
        rw [hstep, hgt]
        rfl

/-- Witness for C5's amended statement: a record missing `player1` makes
the raw singles computer fail; a record with unequal string scores is
accepted and advances the counter. -/
theorem C5_malformed_records_witness :
    (∃ e, ([(⟨none, some 1, some (PyVal.int 3), some (PyVal.int 2)⟩ :
        RawSingles ℕ)].foldlM (rawSinglesStep (fun _ => 1))
        (emptyState : EloState ℕ)) = Except.error e) ∧
    (∃ st2, rawSinglesStep (fun _ => 1) (emptyState : EloState ℕ)
        ⟨some 0, some 1, some (PyVal.str ['5']), some (PyVal.str ['3'])⟩ =
        Except.ok st2 ∧
      st2.matchNumber = (emptyState : EloState ℕ).matchNumber + 1) :=
  ⟨(C5_malformed_records (fun _ => 1)).1 emptyState _ [] (Or.inl rfl),
   (C5_malformed_records (fun _ => 1)).2.2.2.2 emptyState 0 1 ['5'] ['3']
     (by decide)⟩

/-! ### C3 -/

theorem ffaOutcome_swap (ri rj : ℤ) :
    ffaOutcome rj ri = 1 - ffaOutcome ri rj := by
  unfold ffaOutcome
  rcases lt_trichotomy ri rj with h | h | h
  · rw [if_neg (asymm h), if_pos h, if_pos h]
    norm_num
  · subst h
    rw [if_neg (lt_irrefl ri), if_neg (lt_irrefl ri)]
    norm_num
  · rw [if_pos h, if_neg (asymm h), if_pos h]
    norm_num

theorem pairTerms_apply (pow10 : ℚ → ℚ) (R : α → ℚ) (w : ℚ)
    (ti tj : FfaResult α) (d : α → ℚ) (p : α) :
    pairTerms pow10 R w ti tj d p = d p + pairContrib pow10 R w ti tj p := by
  unfold pairTerms pairContrib
  by_cases h2 : p = tj.player
  · subst h2
    rw [Function.update_same]
    by_cases h1 : tj.player = ti.player
    · rw [if_pos h1, if_pos rfl, Function.update_apply, if_pos h1, h1]
      ring
    · rw [if_neg h1, if_pos rfl, Function.update_apply, if_neg h1]
      ring
  · rw [Function.update_noteq h2, if_neg h2]
    by_cases h1 : p = ti.player
    · subst h1
      rw [Function.update_same, if_pos rfl]
      ring
    · rw [Function.update_noteq h1, if_neg h1]
      ring

theorem foldl_pairTerms (pow10 : ℚ → ℚ) (R : α → ℚ) (w : ℚ)
    (t : FfaResult α) (us : List (FfaResult α)) (d : α → ℚ) (p : α) :
    (us.foldl (fun acc u => pairTerms pow10 R w t u acc) d) p =
      d p + (us.map (fun u => pairContrib pow10 R w t u p)).sum := by
  induction us generalizing d with
  | nil => simp
  | cons u us ih =>
      rw [List.foldl_cons, ih, pairTerms_apply]
      simp [add_assoc]

theorem ffaAccum_apply (pow10 : ℚ → ℚ) (R : α → ℚ) (w : ℚ)
    (l : List (FfaResult α)) (d : α → ℚ) (p : α) :
    ffaAccum pow10 R w l d p = d p + pairSum (pairContrib pow10 R w) l p := by
  induction l generalizing d with
  | nil => simp [ffaAccum, pairSum]
  | cons t ts ih =>
      rw [show ffaAccum pow10 R w (t :: ts) d = ffaAccum pow10 R w ts
          (ts.foldl (fun acc u => pairTerms pow10 R w t u acc) d) from rfl,
        ih, foldl_pairTerms]
      simp [pairSum, add_assoc]

theorem pairContrib_symm (pow10 : ℚ → ℚ)
    (hE : ∀ a b : ℚ, expected_score pow10 a b + expected_score pow10 b a = 1)
    (R : α → ℚ) (w : ℚ) (ti tj : FfaResult α) (p : α) :
    pairContrib pow10 R w ti tj p = pairContrib pow10 R w tj ti p := by
  unfold pairContrib
  have ho : ffaOutcome tj.rank ti.rank = 1 - ffaOutcome ti.rank tj.rank :=
    ffaOutcome_swap _ _
  have he : expected_score pow10 (R tj.player) (R ti.player) =
      1 - expected_score pow10 (R ti.player) (R tj.player) := by
    have h := hE (R ti.player) (R tj.player)
    linarith
  rw [ho, he]
  by_cases h1 : p = ti.player <;> by_cases h2 : p = tj.player <;>
    simp [h1, h2] <;> ring

omit [DecidableEq α] in
theorem pairSum_perm {f : FfaResult α → FfaResult α → α → ℚ}
    (hf : ∀ ti tj p, f ti tj p = f tj ti p) {l l2 : List (FfaResult α)}
    (hp : l.Perm l2) (p : α) : pairSum f l p = pairSum f l2 p := by
  induction hp with
  | nil => rfl
  | cons x h ih =>
      simp only [pairSum]
      rw [ih, List.Perm.sum_eq (h.map _)]
  | swap x y l =>
      simp only [pairSum, List.map_cons, List.sum_cons]
      rw [hf y x p]
      ring
  | trans h1 h2 ih1 ih2 => rw [ih1, ih2]

/-- C3: permuting the rows of one FFA match's results list leaves every
player's post-match rating, history and the counter unchanged: all pairwise
deltas are read off the pre-match ratings and accumulated before any rating
is written.  The hypothesis `hE` is the complementarity of the expected
score (true of the exact `1 / (1 + 10 ^ x)`), which makes each unordered
pair's contribution independent of the order in which the loop meets it. -/
theorem C3_ffa_permutation_invariant (pow10 : ℚ → ℚ)
    (hE : ∀ a b : ℚ, expected_score pow10 a b + expected_score pow10 b a = 1)
    (st : EloState α) (l l2 : List (FfaResult α)) (hp : l.Perm l2)
    (hnd : (l.map FfaResult.player).Nodup) :
    (∀ p, (ffaStep pow10 st ⟨l⟩).rating p = (ffaStep pow10 st ⟨l2⟩).rating p) ∧
    (∀ p, (ffaStep pow10 st ⟨l⟩).history p = (ffaStep pow10 st ⟨l2⟩).history p) ∧
    (ffaStep pow10 st ⟨l⟩).matchNumber = (ffaStep pow10 st ⟨l2⟩).matchNumber := by
  have hpm : (l.map FfaResult.player).Perm (l2.map FfaResult.player) :=
    hp.map _
  have hnd2 : (l2.map FfaResult.player).Nodup := hpm.nodup_iff.1 hnd
  have hlen : l.length = l2.length := hp.length_eq
  have hmem : ∀ p, p ∈ l.map FfaResult.player ↔ p ∈ l2.map FfaResult.player :=
    fun p => hpm.mem_iff
  have hd : ∀ p,
      ffaAccum pow10 st.rating (1 / ((l2.length : ℚ) - 1)) l (fun _ => 0) p =
      ffaAccum pow10 st.rating (1 / ((l2.length : ℚ) - 1)) l2 (fun _ => 0) p := by
    intro p
    rw [ffaAccum_apply, ffaAccum_apply,
      pairSum_perm (fun ti tj q => pairContrib_symm pow10 hE st.rating _ ti tj q)
        hp p]
  unfold ffaStep ffaStepList
  dsimp only
  rw [hlen]
  by_cases hsk : l2.length < 2
  · rw [if_pos hsk, if_pos hsk]
    exact ⟨fun p => rfl, fun p => rfl, rfl⟩
  · rw [if_neg hsk, if_neg hsk]
    dsimp only
    refine ⟨fun p => ?_, fun p => ?_, ?_⟩
    · rw [applyDelta_rating _ _ _ _ hnd p, applyDelta_rating _ _ _ _ hnd2 p]
      by_cases hm : p ∈ l.map FfaResult.player
      · rw [if_pos hm, if_pos ((hmem p).1 hm), hd p]
      · rw [if_neg hm, if_neg (fun h => hm ((hmem p).2 h))]
    · rw [applyDelta_history _ _ _ _ hnd p, applyDelta_history _ _ _ _ hnd2 p]
      by_cases hm : p ∈ l.map FfaResult.player
      · rw [if_pos hm, if_pos ((hmem p).1 hm), hd p]
      · rw [if_neg hm, if_neg (fun h => hm ((hmem p).2 h))]
    · rw [applyDelta_matchNumber, applyDelta_matchNumber]

/-- Witness for C3: swapping the two rows of a concrete 2-player FFA match
leaves player 0's rating and history and the counter unchanged. -/
theorem C3_ffa_permutation_invariant_witness :
    (ffaStep (fun _ => 1) (emptyState : EloState ℕ)
        ⟨[⟨0, 10, 1⟩, ⟨1, 5, 2⟩]⟩).rating 0 =
      (ffaStep (fun _ => 1) (emptyState : EloState ℕ)
        ⟨[⟨1, 5, 2⟩, ⟨0, 10, 1⟩]⟩).rating 0 ∧
    (ffaStep (fun _ => 1) (emptyState : EloState ℕ)
        ⟨[⟨0, 10, 1⟩, ⟨1, 5, 2⟩]⟩).matchNumber =
      (ffaStep (fun _ => 1) (emptyState : EloState ℕ)
        ⟨[⟨1, 5, 2⟩, ⟨0, 10, 1⟩]⟩).matchNumber := by
  have h := C3_ffa_permutation_invariant (fun _ => 1)
    (by intro a b; norm_num [expected_score]) (emptyState : EloState ℕ)
    [⟨0, 10, 1⟩, ⟨1, 5, 2⟩] [⟨1, 5, 2⟩, ⟨0, 10, 1⟩]
    (List.Perm.swap _ _ []) (by decide)
  exact ⟨h.1 0, h.2.2⟩

/-! ### C9 -/

theorem HistOK_mono {n m : ℕ} (hnm : n ≤ m) {h : List (ℕ × ℚ)}
    (hh : HistOK n h) : HistOK m h :=
  ⟨hh.1, hh.2.1, fun e he => lt_of_lt_of_le (hh.2.2 e he) hnm⟩

theorem HistOK_baseline {n : ℕ} (hn : 1 ≤ n) :
    HistOK n [(0, DEFAULT_RATING)] := by
  refine ⟨rfl, by simp, ?_⟩
  intro e he
  rw [List.mem_singleton] at he
  subst he
  exact hn

theorem HistOK_append {n : ℕ} {h : List (ℕ × ℚ)} (hh : HistOK n h) (v : ℚ) :
    HistOK (n + 1) (h ++ [(n, v)]) := by
  obtain ⟨hhd, hch, hlt⟩ := hh
  have hne : h ≠ [] := by
    intro he
    rw [he] at hhd
    cases hhd
  refine ⟨?_, ?_, ?_⟩
  · rw [List.head?_append_of_ne_nil h hne, hhd]
  · refine List.Chain'.append hch (List.chain'_singleton _) ?_
    intro x hx y hy
    rw [List.head?_cons, Option.mem_some_iff] at hy
    subst hy
    obtain ⟨hxe, hx2⟩ := List.mem_getLast?_eq_getLast hx
    exact hlt x (hx2 ▸ List.getLast_mem hxe)
  · intro e he
    rcases List.mem_append.1 he with he | he
    · exact lt_trans (hlt e he) (Nat.lt_succ_self n)
    · rw [List.mem_singleton] at he
      subst he
      exact Nat.lt_succ_self n

theorem HistInv_register (st : EloState α) (hinv : HistInv st) (p : α) :
    HistInv (register st p) := by
  refine ⟨?_, ?_⟩
  · rw [register_matchNumber]
    exact hinv.1
  · intro q
    rw [register_matchNumber]
    unfold register
    split
    · exact hinv.2 q
    · dsimp only
      rw [Function.update_apply]
      split
      · exact HistOK_baseline hinv.1
      · exact hinv.2 q

theorem HistInv_initState (seed : List α) : HistInv (initState seed) := by
  refine ⟨?_, ?_⟩
  · rw [initState_matchNumber]
  · intro p
    rw [initState_matchNumber, initState_history]
    exact HistOK_baseline le_rfl

theorem applyDelta_HistOK (d : α → ℚ) (ps : List α) (st : EloState α)
    (hnd : ps.Nodup) (hall : ∀ p, HistOK st.matchNumber (st.history p))
    (p : α) :
    HistOK (st.matchNumber + 1)
      ((applyDelta st.matchNumber d st ps).history p) := by
  rw [applyDelta_history _ _ _ _ hnd p]
  split
  · exact HistOK_append (hall p) _
  · exact HistOK_mono (Nat.le_succ _) (hall p)

theorem singlesBody_HistInv (pow10 : ℚ → ℚ) (st : EloState α) (w l : α)
    (hwl : w ≠ l) (hinv : HistInv st) :
    HistInv (singlesBody pow10 st w l) := by
  refine ⟨?_, ?_⟩
  · show 1 ≤ st.matchNumber + 1
    exact le_trans hinv.1 (Nat.le_succ _)
  · intro q
    show HistOK (st.matchNumber + 1) _
    unfold singlesBody
    dsimp only
    by_cases hql : q = l
    · subst hql
      rw [Function.update_same, Function.update_noteq (fun h => hwl h.symm)]
      exact HistOK_append (hinv.2 q) _
    · rw [Function.update_noteq hql]
      by_cases hqw : q = w
      · subst hqw
        rw [Function.update_same]
        exact HistOK_append (hinv.2 q) _
      · rw [Function.update_noteq hqw]
        exact HistOK_mono (Nat.le_succ _) (hinv.2 q)

theorem singlesStep_HistInv (pow10 : ℚ → ℚ) (st : EloState α)
    (m : SinglesMatch α) (hm : m.player1 ≠ m.player2) (hinv : HistInv st) :
    HistInv (singlesStep pow10 st m) := by
  have h1 : HistInv (register (register st m.player1) m.player2) :=
    HistInv_register _ (HistInv_register _ hinv _) _
  unfold singlesStep
  split
  · exact h1
  · split
    · exact singlesBody_HistInv pow10 _ _ _ hm h1
    · exact singlesBody_HistInv pow10 _ _ _ (Ne.symm hm) h1

theorem doublesStep_HistInv (pow10 : ℚ → ℚ) (st : EloState α)
    (m : TeamMatch α) (hm : (m.team1 ++ m.team2).Nodup) (hinv : HistInv st) :
    HistInv (doublesStep pow10 st m) := by
  obtain ⟨hnd1, hnd2, hdisj⟩ := List.nodup_append.1 hm
  unfold doublesStep
  split
  · exact hinv
  · unfold doublesBody
    refine ⟨?_, ?_⟩
    · dsimp only
      simp only [applyDelta_matchNumber]
      exact le_trans hinv.1 (Nat.le_succ _)
    · intro q
      dsimp only
      simp only [applyDelta_matchNumber]
      by_cases hq2 : q ∈ m.team2
      · rw [applyDelta_history _ _ _ _ hnd2 q, if_pos hq2,
          applyDelta_history _ _ _ _ hnd1 q, if_neg (fun h => hdisj h hq2)]
        exact HistOK_append (hinv.2 q) _
      · rw [applyDelta_history _ _ _ _ hnd2 q, if_neg hq2,
          applyDelta_history _ _ _ _ hnd1 q]
        split
        · exact HistOK_append (hinv.2 q) _
        · exact HistOK_mono (Nat.le_succ _) (hinv.2 q)

theorem ffaStep_HistInv (pow10 : ℚ → ℚ) (st : EloState α) (m : FfaMatch α)
    (hm : (m.results.map FfaResult.player).Nodup) (hinv : HistInv st) :
    HistInv (ffaStep pow10 st m) := by
  unfold ffaStep ffaStepList
  split
  · exact hinv
  · refine ⟨?_, ?_⟩
    · dsimp only
      simp only [applyDelta_matchNumber]
      exact le_trans hinv.1 (Nat.le_succ _)
    · intro q
      dsimp only
      simp only [applyDelta_matchNumber]
      exact applyDelta_HistOK _ _ st hm hinv.2 q

theorem singlesStep_matchNumber (pow10 : ℚ → ℚ) (st : EloState α)
    (m : SinglesMatch α) :
    (singlesStep pow10 st m).matchNumber =
      st.matchNumber + (if m.score1 = m.score2 then 0 else 1) := by
  unfold singlesStep
  split
  · show (register (register st m.player1) m.player2).matchNumber =
      st.matchNumber + 0
    rw [register_matchNumber, register_matchNumber]
    omega
  · dsimp only
    split <;>
      · show (register (register st m.player1) m.player2).matchNumber + 1 = _
        rw [register_matchNumber, register_matchNumber]

theorem doublesStep_matchNumber (pow10 : ℚ → ℚ) (st : EloState α)
    (m : TeamMatch α) :
    (doublesStep pow10 st m).matchNumber =
      st.matchNumber +
        (if m.score1 = m.score2 ∨ m.team1 ∩ m.team2 ≠ [] then 0 else 1) := by
  unfold doublesStep
  split
  · omega
  · unfold doublesBody
    dsimp only
    simp only [applyDelta_matchNumber]

theorem ffaStep_matchNumber (pow10 : ℚ → ℚ) (st : EloState α) (m : FfaMatch α) :
    (ffaStep pow10 st m).matchNumber =
      st.matchNumber + (if m.results.length < 2 then 0 else 1) := by
  unfold ffaStep ffaStepList
  split
  · omega
  · dsimp only
    simp only [applyDelta_matchNumber]

theorem foldl_singles_matchNumber (pow10 : ℚ → ℚ) (ms : List (SinglesMatch α))
    (st : EloState α) :
    (ms.foldl (singlesStep pow10) st).matchNumber =
      st.matchNumber + acceptedCountSingles ms := by
  induction ms generalizing st with
  | nil => simp [acceptedCountSingles]
  | cons m ms ih =>
      rw [List.foldl_cons, ih, singlesStep_matchNumber]
      unfold acceptedCountSingles
      rw [List.countP_cons]
      by_cases h : m.score1 = m.score2
      · rw [if_pos h, if_neg (show ¬(decide (¬ m.score1 = m.score2) = true) by
          simp [h])]
        omega
      · rw [if_neg h, if_pos (show decide (¬ m.score1 = m.score2) = true by
          simp [h])]
        omega

theorem foldl_doubles_matchNumber (pow10 : ℚ → ℚ) (ms : List (TeamMatch α))
    (st : EloState α) :
    (ms.foldl (doublesStep pow10) st).matchNumber =
      st.matchNumber + acceptedCountDoubles ms := by
  induction ms generalizing st with
  | nil => simp [acceptedCountDoubles]
  | cons m ms ih =>
      rw [List.foldl_cons, ih, doublesStep_matchNumber]
      unfold acceptedCountDoubles
      rw [List.countP_cons]
      by_cases h : m.score1 = m.score2 ∨ m.team1 ∩ m.team2 ≠ []
      · rw [if_pos h, if_neg (show
          ¬(decide (¬(m.score1 = m.score2 ∨ m.team1 ∩ m.team2 ≠ [])) = true) by
          simp only [decide_eq_true_eq]
          exact fun hc => hc h)]
        omega
      · rw [if_neg h, if_pos (show
          decide (¬(m.score1 = m.score2 ∨ m.team1 ∩ m.team2 ≠ [])) = true by
          simp only [decide_eq_true_eq]
          exact h)]
        omega

theorem foldl_ffa_matchNumber (pow10 : ℚ → ℚ) (ms : List (FfaMatch α))
    (st : EloState α) :
    (ms.foldl (ffaStep pow10) st).matchNumber =
      st.matchNumber + acceptedCountFfa ms := by
  induction ms generalizing st with
  | nil => simp [acceptedCountFfa]
  | cons m ms ih =>
      rw [List.foldl_cons, ih, ffaStep_matchNumber]
      unfold acceptedCountFfa
      rw [List.countP_cons]
      by_cases h : m.results.length < 2
      · rw [if_pos h, if_neg (show ¬(decide (¬ m.results.length < 2) = true) by
          simp [h])]
        omega
      · rw [if_neg h, if_pos (show decide (¬ m.results.length < 2) = true by
          simp [h])]
        omega

theorem foldl_singles_HistInv (pow10 : ℚ → ℚ) (ms : List (SinglesMatch α))
    (st : EloState α) (hms : ∀ m ∈ ms, m.player1 ≠ m.player2)
    (hinv : HistInv st) : HistInv (ms.foldl (singlesStep pow10) st) := by
  induction ms generalizing st with
  | nil => exact hinv
  | cons m ms ih =>
      rw [List.foldl_cons]
      exact ih _ (fun x hx => hms x (List.mem_cons.2 (Or.inr hx)))
        (singlesStep_HistInv pow10 st m (hms m (List.mem_cons_self m ms)) hinv)

theorem foldl_doubles_HistInv (pow10 : ℚ → ℚ) (ms : List (TeamMatch α))
    (st : EloState α) (hms : ∀ m ∈ ms, (m.team1 ++ m.team2).Nodup)
    (hinv : HistInv st) : HistInv (ms.foldl (doublesStep pow10) st) := by
  induction ms generalizing st with
  | nil => exact hinv
  | cons m ms ih =>
      rw [List.foldl_cons]
      exact ih _ (fun x hx => hms x (List.mem_cons.2 (Or.inr hx)))
        (doublesStep_HistInv pow10 st m (hms m (List.mem_cons_self m ms)) hinv)

theorem foldl_ffa_HistInv (pow10 : ℚ → ℚ) (ms : List (FfaMatch α))
    (st : EloState α) (hms : ∀ m ∈ ms, (m.results.map FfaResult.player).Nodup)
    (hinv : HistInv st) : HistInv (ms.foldl (ffaStep pow10) st) := by
  induction ms generalizing st with
  | nil => exact hinv
  | cons m ms ih =>
      rw [List.foldl_cons]
      exact ih _ (fun x hx => hms x (List.mem_cons.2 (Or.inr hx)))
        (ffaStep_HistInv pow10 st m (hms m (List.mem_cons_self m ms)) hinv)

/-- C9: for well-formed match lists (no player occurring twice in one
record), every player's history in the output of each computer starts at
the baseline `(0, 1000)`, has strictly increasing sequence numbers all
below the final counter (each was the counter value when appended), and the
shared counter starts at 1 and ends at `1 + (number of accepted matches)` —
one advance per accepted match, not per player or per pair. -/
theorem C9_history_invariants (pow10 : ℚ → ℚ) (msS : List (SinglesMatch α))
    (msD : List (TeamMatch α)) (msF : List (FfaMatch α)) (seed : List α)
    (hS : ∀ m ∈ msS, m.player1 ≠ m.player2)
    (hD : ∀ m ∈ msD, (m.team1 ++ m.team2).Nodup)
    (hF : ∀ m ∈ msF, (m.results.map FfaResult.player).Nodup) :
    ((∀ p, HistOK (compute_singles_ratings pow10 msS seed).matchNumber
        ((compute_singles_ratings pow10 msS seed).history p)) ∧
      (compute_singles_ratings pow10 msS seed).matchNumber =
        1 + acceptedCountSingles msS) ∧
    ((∀ p, HistOK (compute_doubles_ratings pow10 msD seed).matchNumber
        ((compute_doubles_ratings pow10 msD seed).history p)) ∧
      (compute_doubles_ratings pow10 msD seed).matchNumber =
        1 + acceptedCountDoubles msD) ∧
    ((∀ p, HistOK (compute_ffa_ratings pow10 msF seed).matchNumber
        ((compute_ffa_ratings pow10 msF seed).history p)) ∧
      (compute_ffa_ratings pow10 msF seed).matchNumber =
        1 + acceptedCountFfa msF) := by
  refine ⟨⟨?_, ?_⟩, ⟨?_, ?_⟩, ⟨?_, ?_⟩⟩
  · exact (foldl_singles_HistInv pow10 msS _ hS (HistInv_initState seed)).2
  · rw [compute_singles_ratings, foldl_singles_matchNumber,
      initState_matchNumber]
  · exact (foldl_doubles_HistInv pow10 msD _ hD (HistInv_initState seed)).2
  · rw [compute_doubles_ratings, foldl_doubles_matchNumber,
      initState_matchNumber]
  · exact (foldl_ffa_HistInv pow10 msF _ hF (HistInv_initState seed)).2
  · rw [compute_ffa_ratings, foldl_ffa_matchNumber, initState_matchNumber]

/-- Witness for C9: one accepted singles match, and empty team/FFA lists,
over `ℕ` players with empty seed. -/
theorem C9_history_invariants_witness :
    (HistOK (compute_singles_ratings (fun _ => 1) [⟨0, 1, 2, 0⟩] ([] : List ℕ)).matchNumber
      ((compute_singles_ratings (fun _ => 1) [⟨0, 1, 2, 0⟩] ([] : List ℕ)).history 0) ∧
      (compute_singles_ratings (fun _ => 1) [⟨0, 1, 2, 0⟩] ([] : List ℕ)).matchNumber =
        1 + acceptedCountSingles [(⟨0, 1, 2, 0⟩ : SinglesMatch ℕ)]) ∧
    (compute_doubles_ratings (fun _ => 1) ([] : List (TeamMatch ℕ)) []).matchNumber =
      1 + acceptedCountDoubles ([] : List (TeamMatch ℕ)) ∧
    (compute_ffa_ratings (fun _ => 1) ([] : List (FfaMatch ℕ)) []).matchNumber =
      1 + acceptedCountFfa ([] : List (FfaMatch ℕ)) := by
  have h := C9_history_invariants (fun _ => 1) [(⟨0, 1, 2, 0⟩ : SinglesMatch ℕ)]
    ([] : List (TeamMatch ℕ)) ([] : List (FfaMatch ℕ)) [] (by decide)
    (by simp) (by simp)
  exact ⟨⟨h.1.1 0, h.1.2⟩, h.2.1.2, h.2.2.2⟩

end SportsElo
